import Mathlib

/-!
Verification of the categorical distributional DQN (C51) agent in
`src/agent/CategoricalDQN.py`.  The numeric computations of the agent are
embedded over `ℚ` (exact arithmetic in place of IEEE floats); the batch
dimension is handled per item, since every property under study is stated
per batch item.
-/

namespace CategoricalDQN

/-- `np.clip(x, lo, hi)`: values below `lo` saturate to `lo`, values above
`hi` saturate to `hi` (numpy applies the lower bound first, then the
upper bound). -/
def npClip (x lo hi : ℚ) : ℚ := min (max x lo) hi

/-- `np.linspace(vmin, vmax, n)`: `n` evenly spaced values from `vmin` to
`vmax` inclusive, with step `(vmax - vmin) / (n - 1)`.  This is
`self.atoms` in `CategoricalDQNAgent.__init__`. -/
def npLinspace (vmin vmax : ℚ) (n : ℕ) : List ℚ :=
  (List.range n).map (fun j : ℕ => vmin + (j : ℚ) * ((vmax - vmin) / ((n : ℚ) - 1)))

/-- `CategoricalDQNAgent.__init__`: builds `self.atoms` via `np.linspace`
and `self.delta_z = (vmax - vmin) / float(n_atoms - 1)`.  The only failure
the constructor can raise is the `ZeroDivisionError` from the `delta_z`
division when `n_atoms == 1` (Python float division by `0.0`); no
configuration validation is performed.  `none` models that error. -/
def agentInit (vmin vmax : ℚ) (n_atoms : ℕ) : Option (List ℚ × ℚ) :=
  if n_atoms = 1 then none
  else some (npLinspace vmin vmax n_atoms, (vmax - vmin) / ((n_atoms : ℚ) - 1))

/-- `np.dot(p, atoms)` for one probability row: the expectation of the
atom values under `p`. -/
def dot (p atoms : List ℚ) : ℚ := (List.zipWith (fun a b => a * b) p atoms).sum

/-- `q_next = np.dot(prob_next, self.atoms)` restricted to one batch item:
one Q value per action. -/
def qValues (dist : List (List ℚ)) (atoms : List ℚ) : List ℚ :=
  dist.map (fun p => dot p atoms)

/-- `np.argmax`: the index of the first occurrence of the maximum
(first-max tie-break).  On the empty list numpy raises; we return `0`,
and every theorem about `npArgmax` assumes a nonempty list. -/
def npArgmax : List ℚ → ℕ
  | [] => 0
  | [_] => 0
  | x :: y :: xs =>
    if x < (y :: xs).getD (npArgmax (y :: xs)) 0 then npArgmax (y :: xs) + 1 else 0

/-- `action_next = np.argmax(q_next, axis=1)` for one batch item
(step 3 of `train_by_replay`). -/
def selectNextAction (prob_next : List (List ℚ)) (atoms : List ℚ) : ℕ :=
  npArgmax (qValues prob_next atoms)

/-- `action = np.argmax(action_value[0], axis=0)` in `eval_step`. -/
def evalAction (action_prob : List (List ℚ)) (atoms : List ℚ) : ℕ :=
  npArgmax (qValues action_prob atoms)

/-- `atoms_next = rewards + np.dot(discount_rate.reshape(...), atoms)`
where `discount_rate = self.config.discount_rate * (1 - terminals)`,
for one batch item. -/
def tzRaw (discount_rate reward terminal : ℚ) (atoms : List ℚ) : List ℚ :=
  atoms.map (fun z => reward + (discount_rate * (1 - terminal)) * z)

/-- `atoms_next = np.clip(atoms_next, self.vmin, self.vmax)`. -/
def tzClipped (vmin vmax discount_rate reward terminal : ℚ) (atoms : List ℚ) : List ℚ :=
  (tzRaw discount_rate reward terminal atoms).map (fun x => npClip x vmin vmax)

/-- `b = (atoms_next - Vmin) / self.delta_z` for one entry. -/
def bCoord (vmin delta_z x : ℚ) : ℚ := (x - vmin) / delta_z

/-- `d_m_l = (u + (l == u) - b) * prob_next` for one entry, with
`l = np.floor(b)`, `u = np.ceil(b)`. -/
def dml (b p : ℚ) : ℚ := ((⌈b⌉ : ℚ) + (if ⌊b⌋ = ⌈b⌉ then (1 : ℚ) else 0) - b) * p

/-- `d_m_u = (b - l) * prob_next` for one entry. -/
def dmu (b p : ℚ) : ℚ := (b - (⌊b⌋ : ℚ)) * p

/-- The vector `b` of fractional bin coordinates of one batch item. -/
def bList (vmin vmax delta_z discount_rate reward terminal : ℚ) (atoms : List ℚ) : List ℚ :=
  (tzClipped vmin vmax discount_rate reward terminal atoms).map (fun x => bCoord vmin delta_z x)

/-- `l = np.floor(b).astype(int)` for one batch item. -/
def lList (vmin vmax delta_z discount_rate reward terminal : ℚ) (atoms : List ℚ) : List ℤ :=
  (bList vmin vmax delta_z discount_rate reward terminal atoms).map (fun x => ⌊x⌋)

/-- `u = np.ceil(b).astype(int)` for one batch item. -/
def uList (vmin vmax delta_z discount_rate reward terminal : ℚ) (atoms : List ℚ) : List ℤ :=
  (bList vmin vmax delta_z discount_rate reward terminal atoms).map (fun x => ⌈x⌉)

/-- The vector `d_m_l` of one batch item. -/
def dmlList (vmin vmax delta_z discount_rate reward terminal : ℚ)
    (atoms p : List ℚ) : List ℚ :=
  List.zipWith dml (bList vmin vmax delta_z discount_rate reward terminal atoms) p

/-- The vector `d_m_u` of one batch item. -/
def dmuList (vmin vmax delta_z discount_rate reward terminal : ℚ)
    (atoms p : List ℚ) : List ℚ :=
  List.zipWith dmu (bList vmin vmax delta_z discount_rate reward terminal atoms) p

/-- Add `v` at position `i` of `row`.  In every use in this development the
index is a proven in-range nonnegative integer, so numpy's negative-index
wrapping and out-of-range `IndexError` of `np.add.at` cannot occur. -/
def addAt : List ℚ → ℤ → ℚ → List ℚ
  | [], _, _ => []
  | x :: xs, i, v => if i = 0 then (x + v) :: xs else x :: addAt xs (i - 1) v

/-- `np.add.at(row, idx, vals)`: unbuffered scatter-add, accumulating
repeated indices. -/
def npAddAt : List ℚ → List (ℤ × ℚ) → List ℚ
  | row, [] => row
  | row, iv :: rest => npAddAt (addAt row iv.1 iv.2) rest

/-- The selected-action row of `target_histo` for one batch item, exactly
as the scatter loop of `train_by_replay` computes it:

    np.add.at(target_histo[i][action_next[i]], l[i], d_m_l[i])
    np.add.at(target_histo[i][action_next[i]], l[i], d_m_u[i])

Note both scatter-adds use `l[i]` as the index vector. -/
def selectedRow (vmin vmax delta_z discount_rate reward terminal : ℚ)
    (n_atoms : ℕ) (atoms p : List ℚ) : List ℚ :=
  npAddAt
    (npAddAt (List.replicate n_atoms 0)
      ((lList vmin vmax delta_z discount_rate reward terminal atoms).zip
        (dmlList vmin vmax delta_z discount_rate reward terminal atoms p)))
    ((lList vmin vmax delta_z discount_rate reward terminal atoms).zip
      (dmuList vmin vmax delta_z discount_rate reward terminal atoms p))

/-- `target_histo` for one batch item: an all-zero `(action_dim, n_atoms)`
tensor whose row `action_next[i]` is overwritten with the projected
distribution (steps 3-5 of `train_by_replay`). -/
def projectItem (vmin vmax delta_z discount_rate reward terminal : ℚ)
    (n_atoms action_dim : ℕ) (prob_next : List (List ℚ)) (atoms : List ℚ) :
    List (List ℚ) :=
  (List.range action_dim).map (fun k =>
    if k = selectNextAction prob_next atoms then
      selectedRow vmin vmax delta_z discount_rate reward terminal n_atoms atoms
        (prob_next.getD (selectNextAction prob_next atoms) [])
    else List.replicate n_atoms 0)

/-- The target-network synchronization guard in `transition`:
`if self.total_steps > self.config.weights_update_frequency`. -/
def syncHappens (total_steps threshold : ℕ) : Bool := threshold < total_steps

/-- Number of target-network synchronizations performed during the first
`n` steps of the agent loop; on the `t`-th step `total_steps` has the
value `t` and the guard `syncHappens t threshold` decides the sync. -/
def syncCount (threshold : ℕ) : ℕ → ℕ
  | 0 => 0
  | n + 1 => syncCount threshold n + (if syncHappens (n + 1) threshold then 1 else 0)

/-! ## Helper lemmas -/

lemma ceil_eq_floor_add_one_of_ne (b : ℚ) (h : ⌊b⌋ ≠ ⌈b⌉) : ⌈b⌉ = ⌊b⌋ + 1 := by
  have h1 := Int.floor_le_ceil b
  have h2 := Int.ceil_le_floor_add_one b
  omega

lemma weight_sum (b : ℚ) :
    ((⌈b⌉ : ℚ) + (if ⌊b⌋ = ⌈b⌉ then (1 : ℚ) else 0) - b) + (b - (⌊b⌋ : ℚ)) = 1 := by
  by_cases h : ⌊b⌋ = ⌈b⌉
  · rw [if_pos h, h]; ring
  · rw [if_neg h, ceil_eq_floor_add_one_of_ne b h]; push_cast; ring

lemma dml_add_dmu (b p : ℚ) : dml b p + dmu b p = p := by
  unfold dml dmu
  rw [← add_mul, weight_sum, one_mul]

lemma npLinspace_getD (vmin vmax : ℚ) (n j : ℕ) (hj : j < n) :
    (npLinspace vmin vmax n).getD j 0
      = vmin + (j : ℚ) * ((vmax - vmin) / ((n : ℚ) - 1)) := by
  unfold npLinspace
  have hlen : j < ((List.range n).map
      (fun j : ℕ => vmin + (j : ℚ) * ((vmax - vmin) / ((n : ℚ) - 1)))).length := by
    simpa using hj
  rw [List.getD_eq_getElem _ _ hlen, List.getElem_map, List.getElem_range]

lemma cast_sub_one_pos (n : ℕ) (hn : 2 ≤ n) : (0 : ℚ) < (n : ℚ) - 1 := by
  have : (2 : ℚ) ≤ (n : ℚ) := by exact_mod_cast hn
  linarith

lemma mem_tzClipped_bounds (vmin vmax discount_rate reward terminal : ℚ)
    (atoms : List ℚ) (h : vmin ≤ vmax) :
    ∀ x ∈ tzClipped vmin vmax discount_rate reward terminal atoms,
      vmin ≤ x ∧ x ≤ vmax := by
  intro x hx
  unfold tzClipped at hx
  rcases List.mem_map.mp hx with ⟨y, _, rfl⟩
  unfold npClip
  exact ⟨le_min (le_max_right _ _) h, min_le_right _ _⟩

lemma bCoord_bounds (vmin vmax delta_z x : ℚ) (n : ℕ) (hn : 2 ≤ n)
    (hv : vmin < vmax) (hδ : delta_z = (vmax - vmin) / ((n : ℚ) - 1))
    (hx1 : vmin ≤ x) (hx2 : x ≤ vmax) :
    0 ≤ bCoord vmin delta_z x ∧ bCoord vmin delta_z x ≤ (n : ℚ) - 1 := by
  have hn1 : (0 : ℚ) < (n : ℚ) - 1 := cast_sub_one_pos n hn
  have hδpos : 0 < delta_z := by
    rw [hδ]
    exact div_pos (by linarith) hn1
  constructor
  · exact div_nonneg (by linarith) (le_of_lt hδpos)
  · unfold bCoord
    rw [div_le_iff₀ hδpos, hδ]
    have hcancel : ((n : ℚ) - 1) * ((vmax - vmin) / ((n : ℚ) - 1)) = vmax - vmin := by
      field_simp
    rw [hcancel]
    linarith

lemma floor_ceil_of_bCoord_in_range (b : ℚ) (n : ℕ)
    (h0 : 0 ≤ b) (h1 : b ≤ (n : ℚ) - 1) :
    0 ≤ ⌊b⌋ ∧ ⌊b⌋ ≤ (n : ℤ) - 1 ∧ 0 ≤ ⌈b⌉ ∧ ⌈b⌉ ≤ (n : ℤ) - 1 := by
  have hf0 : 0 ≤ ⌊b⌋ := Int.floor_nonneg.mpr h0
  have hc1 : ⌈b⌉ ≤ (n : ℤ) - 1 := by
    rw [Int.ceil_le]
    push_cast
    exact h1
  have hfc := Int.floor_le_ceil b
  exact ⟨hf0, by omega, by omega, hc1⟩

/-! ## Claim theorems -/

/-- C3: for every fractional coordinate `b` and probability mass `p`, the two
interpolation weights `(u + (l == u) - b)` and `(b - l)` sum to exactly `1`,
so `d_m_l + d_m_u = p`, including in the edge case `l == u` where the
projected value lands exactly on a grid point. -/
theorem weights_sum_to_one_and_mass_conserved (b p : ℚ) :
    ((⌈b⌉ : ℚ) + (if ⌊b⌋ = ⌈b⌉ then (1 : ℚ) else 0) - b) + (b - (⌊b⌋ : ℚ)) = 1 ∧
    dml b p + dmu b p = p :=
  ⟨weight_sum b, dml_add_dmu b p⟩

/-- C8 counterexample: with `weights_update_frequency = 1`, after 3 steps the
guard `total_steps > threshold` has fired twice (on steps 2 and 3), not
exactly once: the sync is not one-shot per threshold crossing. -/
theorem sync_not_one_shot : syncCount 1 3 = 2 ∧ ¬ syncCount 1 3 = 1 := by decide

/-- C8 (amended): the target-network sync fires on every step whose total
step count exceeds `weights_update_frequency`, hence `n - threshold` times
during the first `n` steps — every step after warmup, not once. -/
theorem sync_every_step_after_threshold (threshold n : ℕ) :
    syncCount threshold n = n - threshold := by
  induction n with
  | zero => simp [syncCount]
  | succ n ih =>
    by_cases h : threshold < n + 1 <;>
      simp [syncCount, syncHappens, ih, h] <;> omega

/-- C9 counterexample: with the invalid configuration `vmin = vmax = 0`,
`n_atoms = 3`, agent construction succeeds silently with a degenerate
support (`atoms = [0, 0, 0]`, `delta_z = 0`); no ConfigurationError is
raised. -/
theorem init_accepts_degenerate_support :
    agentInit 0 0 3 = some ([0, 0, 0], 0) := by
  norm_num [agentInit, npLinspace, List.range_succ]

/-- C9 (amended): `CategoricalDQNAgent.__init__` performs no configuration
validation; it fails only with a ZeroDivisionError when `n_atoms = 1` (the
`delta_z` division by `float(0)`), and for every other configuration —
including `vmax <= vmin` or `n_atoms = 0` — construction succeeds silently,
degenerate support included. -/
theorem init_fails_only_on_one_atom (vmin vmax : ℚ) (n : ℕ) :
    agentInit vmin vmax n = none ↔ n = 1 := by
  by_cases h : n = 1 <;> simp [agentInit, h]

/-- C1: evaluating the scatter step of `train_by_replay` at a concrete input
where `l ≠ u` (support `[0, 1, 2]`, `delta_z = 1`, `reward = 1/2`,
non-terminal, point mass at atom `0`, so `b = [1/2, 3/2, 2]`,
`l = [0, 1, 2]`, `u = [1, 2, 2]`): both the lower contribution `1/2` and the
upper contribution `1/2` land at index `l[0] = 0`, producing `[1, 0, 0]`;
index `u[0] = 1` receives nothing even though `d_m_u[0] = 1/2`, contradicting
the claim that the upper contribution is scatter-added at `u`. -/
theorem scatter_adds_both_contributions_at_lower_index :
    selectedRow 0 2 1 1 (1/2) 0 3 [0, 1, 2] [1, 0, 0] = [1, 0, 0] ∧
    lList 0 2 1 1 (1/2) 0 [0, 1, 2] = [0, 1, 2] ∧
    uList 0 2 1 1 (1/2) 0 [0, 1, 2] = [1, 2, 2] ∧
    dmuList 0 2 1 1 (1/2) 0 [0, 1, 2] [1, 0, 0] = [1/2, 0, 0] := by
  have hc1 : ⌈(1 : ℚ)/2⌉ = 1 := by rw [Int.ceil_eq_iff]; norm_num
  have hc2 : ⌈(3 : ℚ)/2⌉ = 2 := by rw [Int.ceil_eq_iff]; norm_num
  have hc3 : ⌈(2 : ℚ)⌉ = 2 := by rw [Int.ceil_eq_iff]; norm_num
  have hf1 : ⌊(1 : ℚ)/2⌋ = 0 := by rw [Int.floor_eq_iff]; norm_num
  have hf2 : ⌊(3 : ℚ)/2⌋ = 1 := by rw [Int.floor_eq_iff]; norm_num
  have hf3 : ⌊(2 : ℚ)⌋ = 2 := by norm_num
  norm_num [selectedRow, lList, uList, dmlList, dmuList, bList, tzClipped, tzRaw,
    bCoord, npClip, dml, dmu, npAddAt, addAt, List.replicate,
    hc1, hc2, hc3, hf1, hf2, hf3]

/-- C6: after the clipping step every shifted support value lies within
`[vmin, vmax]`; out-of-range values are saturated to the nearest endpoint,
not discarded. -/
theorem tz_clipped_within_bounds (vmin vmax discount_rate reward terminal : ℚ)
    (atoms : List ℚ) (h : vmin ≤ vmax) :
    ∀ x ∈ tzClipped vmin vmax discount_rate reward terminal atoms,
      vmin ≤ x ∧ x ≤ vmax :=
  mem_tzClipped_bounds vmin vmax discount_rate reward terminal atoms h

/-- C6 witness: at `vmin = 0`, `vmax = 1`, `reward = 5`, one atom `0`, the
raw shifted value `5` falls outside `[0, 1]` and is saturated into it. -/
theorem tz_clipped_within_bounds_witness :
    (0 : ℚ) ≤ 1 ∧ ∀ x ∈ tzClipped 0 1 1 5 0 [0], 0 ≤ x ∧ x ≤ 1 :=
  ⟨by norm_num, tz_clipped_within_bounds 0 1 1 5 0 [0] (by norm_num)⟩

/-- C4: for `n_atoms >= 2` and `vmax > vmin` the support has exactly
`n_atoms` values, starts at `vmin`, ends at `vmax`, has uniform spacing
`delta_z = (vmax - vmin) / (n_atoms - 1)` between consecutive atoms, and is
strictly increasing. -/
theorem support_construction_valid (vmin vmax : ℚ) (n : ℕ)
    (hn : 2 ≤ n) (hv : vmin < vmax) :
    (npLinspace vmin vmax n).length = n ∧
    (npLinspace vmin vmax n).getD 0 0 = vmin ∧
    (npLinspace vmin vmax n).getD (n - 1) 0 = vmax ∧
    (∀ j, j + 1 < n →
      (npLinspace vmin vmax n).getD (j + 1) 0 - (npLinspace vmin vmax n).getD j 0
        = (vmax - vmin) / ((n : ℚ) - 1)) ∧
    (∀ i j, i < j → j < n →
      (npLinspace vmin vmax n).getD i 0 < (npLinspace vmin vmax n).getD j 0) := by
  have hn1 : (0 : ℚ) < (n : ℚ) - 1 := cast_sub_one_pos n hn
  have hδpos : 0 < (vmax - vmin) / ((n : ℚ) - 1) := div_pos (by linarith) hn1
  refine ⟨by simp [npLinspace], ?_, ?_, ?_, ?_⟩
  · rw [npLinspace_getD vmin vmax n 0 (by omega)]
    simp
  · rw [npLinspace_getD vmin vmax n (n - 1) (by omega)]
    have hcast : ((n - 1 : ℕ) : ℚ) = (n : ℚ) - 1 := by
      have : (1 : ℕ) ≤ n := by omega
      push_cast [this]
      ring
    rw [hcast]
    field_simp
  · intro j hj
    rw [npLinspace_getD vmin vmax n (j + 1) hj, npLinspace_getD vmin vmax n j (by omega)]
    push_cast
    ring
  · intro i j hij hj
    rw [npLinspace_getD vmin vmax n i (by omega), npLinspace_getD vmin vmax n j hj]
    have hc : (i : ℚ) < (j : ℚ) := by exact_mod_cast hij
    nlinarith

/-- C4 witness: the support for `vmin = 0`, `vmax = 2`, `n_atoms = 3`
(`atoms = [0, 1, 2]`, `delta_z = 1`) satisfies every part of the contract. -/
theorem support_construction_valid_witness :
    (npLinspace 0 2 3).length = 3 ∧
    (npLinspace 0 2 3).getD 0 0 = 0 ∧
    (npLinspace 0 2 3).getD (3 - 1) 0 = 2 ∧
    (∀ j, j + 1 < 3 →
      (npLinspace 0 2 3).getD (j + 1) 0 - (npLinspace 0 2 3).getD j 0
        = (2 - 0) / ((3 : ℚ) - 1)) ∧
    (∀ i j, i < j → j < 3 →
      (npLinspace 0 2 3).getD i 0 < (npLinspace 0 2 3).getD j 0) :=
  support_construction_valid 0 2 3 (by norm_num) (by norm_num)

lemma argmax_spec : ∀ (l : List ℚ), l ≠ [] →
    npArgmax l < l.length ∧
    (∀ k, k < l.length → l.getD k 0 ≤ l.getD (npArgmax l) 0) ∧
    (∀ k, k < npArgmax l → l.getD k 0 < l.getD (npArgmax l) 0)
  | [], h => absurd rfl h
  | [x], _ => by
    refine ⟨by simp [npArgmax], ?_, ?_⟩
    · intro k hk
      simp only [List.length_singleton, Nat.lt_one_iff] at hk
      subst hk
      simp [npArgmax]
    · intro k hk
      simp [npArgmax] at hk
  | x :: y :: xs, _ => by
    obtain ⟨ih1, ih2, ih3⟩ := argmax_spec (y :: xs) (by simp)
    by_cases hx : x < (y :: xs).getD (npArgmax (y :: xs)) 0
    · have heq : npArgmax (x :: y :: xs) = npArgmax (y :: xs) + 1 := by
        simp only [npArgmax]
        rw [if_pos hx]
      rw [heq]
      refine ⟨by simpa using ih1, ?_, ?_⟩
      · intro k hk
        cases k with
        | zero =>
          rw [List.getD_cons_zero, List.getD_cons_succ]
          exact le_of_lt hx
        | succ k =>
          rw [List.getD_cons_succ, List.getD_cons_succ]
          exact ih2 k (by simp at hk ⊢; omega)
      · intro k hk
        cases k with
        | zero =>
          rw [List.getD_cons_zero, List.getD_cons_succ]
          exact hx
        | succ k =>
          rw [List.getD_cons_succ, List.getD_cons_succ]
          exact ih3 k (by omega)
    · have heq : npArgmax (x :: y :: xs) = 0 := by
        simp only [npArgmax]
        rw [if_neg hx]
      rw [heq]
      have hmax : (y :: xs).getD (npArgmax (y :: xs)) 0 ≤ x := not_lt.mp hx
      refine ⟨by simp, ?_, ?_⟩
      · intro k hk
        cases k with
        | zero => exact le_refl _
        | succ k =>
          rw [List.getD_cons_succ, List.getD_cons_zero]
          exact le_trans (ih2 k (by simp at hk ⊢; omega)) hmax
      · intro k hk
        omega

/-- C7: action selection has first-max tie-break semantics: the selected
index is within range, attains the maximum Q value, and every earlier index
has a strictly smaller Q value (so on ties the lower index wins); this holds
for the next-action selection of `train_by_replay` and, identically, for the
evaluation policy of `eval_step`. -/
theorem action_selection_first_max (dist : List (List ℚ)) (atoms : List ℚ)
    (h : dist ≠ []) :
    (selectNextAction dist atoms < (qValues dist atoms).length ∧
     (∀ k, k < (qValues dist atoms).length →
       (qValues dist atoms).getD k 0
         ≤ (qValues dist atoms).getD (selectNextAction dist atoms) 0) ∧
     (∀ k, k < selectNextAction dist atoms →
       (qValues dist atoms).getD k 0
         < (qValues dist atoms).getD (selectNextAction dist atoms) 0)) ∧
    evalAction dist atoms = selectNextAction dist atoms := by
  have hne : qValues dist atoms ≠ [] := by
    simpa [qValues] using h
  exact ⟨argmax_spec (qValues dist atoms) hne, rfl⟩

/-- C7 witness: two actions with equal Q values (`q = [2, 2]`): the selected
action is index `0`, the lower one. -/
theorem action_selection_first_max_witness :
    ((selectNextAction [[1], [1]] [2] < (qValues [[(1 : ℚ)], [1]] [2]).length ∧
      (∀ k, k < (qValues [[(1 : ℚ)], [1]] [2]).length →
        (qValues [[(1 : ℚ)], [1]] [2]).getD k 0
          ≤ (qValues [[(1 : ℚ)], [1]] [2]).getD (selectNextAction [[1], [1]] [2]) 0) ∧
      (∀ k, k < selectNextAction [[(1 : ℚ)], [1]] [2] →
        (qValues [[(1 : ℚ)], [1]] [2]).getD k 0
          < (qValues [[(1 : ℚ)], [1]] [2]).getD (selectNextAction [[1], [1]] [2]) 0)) ∧
     evalAction [[(1 : ℚ)], [1]] [2] = selectNextAction [[1], [1]] [2]) ∧
    selectNextAction [[(1 : ℚ)], [1]] [2] = 0 :=
  ⟨action_selection_first_max [[1], [1]] [2] (by simp),
   by norm_num [selectNextAction, qValues, dot, npArgmax]⟩

/-- C5: in the target histogram of one batch item, every row for a
non-selected action is all zeros (the tensor is created by `np.zeros` and
only the row of the selected next action is updated). -/
theorem non_selected_rows_zero (vmin vmax delta_z discount_rate reward terminal : ℚ)
    (n_atoms action_dim : ℕ) (prob_next : List (List ℚ)) (atoms : List ℚ)
    (a : ℕ) (ha : a < action_dim) (hne : a ≠ selectNextAction prob_next atoms) :
    (projectItem vmin vmax delta_z discount_rate reward terminal n_atoms action_dim
      prob_next atoms).getD a [] = List.replicate n_atoms 0 := by
  unfold projectItem
  have hlen : a < ((List.range action_dim).map (fun k =>
      if k = selectNextAction prob_next atoms then
        selectedRow vmin vmax delta_z discount_rate reward terminal n_atoms atoms
          (prob_next.getD (selectNextAction prob_next atoms) [])
      else List.replicate n_atoms 0)).length := by
    simpa using ha
  rw [List.getD_eq_getElem _ _ hlen, List.getElem_map, List.getElem_range]
  rw [if_neg hne]

/-- C5 witness: with two actions, `q = [1, 0]`, selected action `0`: the row
of action `1` is all zeros. -/
theorem non_selected_rows_zero_witness :
    (1 < 2 ∧ 1 ≠ selectNextAction [[(1 : ℚ)], [0]] [1]) ∧
    (projectItem 0 2 1 1 (1/2) 0 3 2 [[(1 : ℚ)], [0]] [1]).getD 1 []
      = List.replicate 3 0 :=
  ⟨⟨by norm_num, by norm_num [selectNextAction, qValues, dot, npArgmax]⟩,
   non_selected_rows_zero 0 2 1 1 (1/2) 0 3 2 [[1], [0]] [1] 1 (by norm_num)
     (by norm_num [selectNextAction, qValues, dot, npArgmax])⟩

/-- C10: given `vmax > vmin` and `n_atoms >= 2`, with
`delta_z = (vmax - vmin) / (n_atoms - 1)`, every floor index in `l` and
every ceiling index in `u` lies in `[0, n_atoms - 1]`, for any reward,
discount, terminal flag and atom values — so every scatter-add into the
length-`n_atoms` histogram row is within bounds. -/
theorem scatter_indices_in_range (vmin vmax delta_z discount_rate reward terminal : ℚ)
    (atoms : List ℚ) (n : ℕ) (hn : 2 ≤ n) (hv : vmin < vmax)
    (hδ : delta_z = (vmax - vmin) / ((n : ℚ) - 1)) :
    (∀ i ∈ lList vmin vmax delta_z discount_rate reward terminal atoms,
      0 ≤ i ∧ i ≤ (n : ℤ) - 1) ∧
    (∀ i ∈ uList vmin vmax delta_z discount_rate reward terminal atoms,
      0 ≤ i ∧ i ≤ (n : ℤ) - 1) := by
  have key : ∀ b ∈ bList vmin vmax delta_z discount_rate reward terminal atoms,
      0 ≤ ⌊b⌋ ∧ ⌊b⌋ ≤ (n : ℤ) - 1 ∧ 0 ≤ ⌈b⌉ ∧ ⌈b⌉ ≤ (n : ℤ) - 1 := by
    intro b hb
    unfold bList at hb
    rcases List.mem_map.mp hb with ⟨x, hx, rfl⟩
    obtain ⟨hx1, hx2⟩ := mem_tzClipped_bounds vmin vmax discount_rate reward terminal
      atoms (le_of_lt hv) x hx
    obtain ⟨hb0, hb1⟩ := bCoord_bounds vmin vmax delta_z x n hn hv hδ hx1 hx2
    exact floor_ceil_of_bCoord_in_range _ n hb0 hb1
  constructor
  · intro i hi
    unfold lList at hi
    rcases List.mem_map.mp hi with ⟨b, hb, rfl⟩
    obtain ⟨h1, h2, _, _⟩ := key b hb
    exact ⟨h1, h2⟩
  · intro i hi
    unfold uList at hi
    rcases List.mem_map.mp hi with ⟨b, hb, rfl⟩
    obtain ⟨_, _, h3, h4⟩ := key b hb
    exact ⟨h3, h4⟩

/-- C10 witness: `vmin = 0`, `vmax = 2`, `n_atoms = 3`, `delta_z = 1`, one
atom at `5` (shifted value saturates at `vmax`): both indices lie in
`[0, 2]`. -/
theorem scatter_indices_in_range_witness :
    (2 ≤ 3 ∧ (0 : ℚ) < 2 ∧ (1 : ℚ) = (2 - 0) / ((3 : ℚ) - 1)) ∧
    ((∀ i ∈ lList 0 2 1 1 (1/2) 0 [5], 0 ≤ i ∧ i ≤ (3 : ℤ) - 1) ∧
     (∀ i ∈ uList 0 2 1 1 (1/2) 0 [5], 0 ≤ i ∧ i ≤ (3 : ℤ) - 1)) :=
  ⟨⟨by norm_num, by norm_num, by norm_num⟩,
   scatter_indices_in_range 0 2 1 1 (1/2) 0 [5] 3 (by norm_num) (by norm_num)
     (by norm_num)⟩

lemma addAt_length (row : List ℚ) (i : ℤ) (v : ℚ) :
    (addAt row i v).length = row.length := by
  induction row generalizing i with
  | nil => rfl
  | cons x xs ih =>
    unfold addAt
    by_cases hi : i = 0
    · rw [if_pos hi]
      simp
    · rw [if_neg hi]
      simp [ih]

lemma addAt_sum (row : List ℚ) (i : ℤ) (v : ℚ)
    (h0 : 0 ≤ i) (h1 : i < row.length) :
    (addAt row i v).sum = row.sum + v := by
  induction row generalizing i with
  | nil =>
    simp at h1
    omega
  | cons x xs ih =>
    unfold addAt
    by_cases hi : i = 0
    · rw [if_pos hi]
      simp
      ring
    · rw [if_neg hi]
      simp only [List.sum_cons]
      rw [ih (i - 1) (by omega) (by simp at h1 ⊢; omega)]
      ring

lemma npAddAt_length (ps : List (ℤ × ℚ)) (row : List ℚ) :
    (npAddAt row ps).length = row.length := by
  induction ps generalizing row with
  | nil => rfl
  | cons iv rest ih =>
    unfold npAddAt
    rw [ih, addAt_length]

lemma npAddAt_sum (ps : List (ℤ × ℚ)) (row : List ℚ)
    (h : ∀ iv ∈ ps, 0 ≤ iv.1 ∧ iv.1 < (row.length : ℤ)) :
    (npAddAt row ps).sum = row.sum + (ps.map Prod.snd).sum := by
  induction ps generalizing row with
  | nil => simp [npAddAt]
  | cons iv rest ih =>
    have hiv := h iv (List.mem_cons_self _ _)
    unfold npAddAt
    rw [ih (addAt row iv.1 iv.2) ?_]
    · rw [addAt_sum row iv.1 iv.2 hiv.1 hiv.2]
      simp only [List.map_cons, List.sum_cons]
      ring
    · intro jv hjv
      have := h jv (List.mem_cons_of_mem _ hjv)
      rwa [addAt_length]

lemma zipWith_dml_dmu_sum (bs ps : List ℚ) (h : bs.length = ps.length) :
    (List.zipWith dml bs ps).sum + (List.zipWith dmu bs ps).sum = ps.sum := by
  induction bs generalizing ps with
  | nil =>
    cases ps with
    | nil => simp
    | cons p ps => simp at h
  | cons b bs ih =>
    cases ps with
    | nil => simp at h
    | cons p ps =>
      simp only [List.zipWith_cons_cons, List.sum_cons]
      have h1 := ih ps (by simpa using h)
      have h2 := dml_add_dmu b p
      linarith

lemma bList_length (vmin vmax delta_z discount_rate reward terminal : ℚ)
    (atoms : List ℚ) :
    (bList vmin vmax delta_z discount_rate reward terminal atoms).length
      = atoms.length := by
  simp [bList, tzClipped, tzRaw]

lemma lList_length (vmin vmax delta_z discount_rate reward terminal : ℚ)
    (atoms : List ℚ) :
    (lList vmin vmax delta_z discount_rate reward terminal atoms).length
      = atoms.length := by
  simp [lList, bList_length]

lemma lList_mem_bounds (vmin vmax delta_z discount_rate reward terminal : ℚ)
    (atoms : List ℚ) (n : ℕ) (hn : 2 ≤ n) (hv : vmin < vmax)
    (hδ : delta_z = (vmax - vmin) / ((n : ℚ) - 1)) :
    ∀ i ∈ lList vmin vmax delta_z discount_rate reward terminal atoms,
      0 ≤ i ∧ i < (n : ℤ) := by
  intro i hi
  unfold lList at hi
  rcases List.mem_map.mp hi with ⟨b, hb, rfl⟩
  unfold bList at hb
  rcases List.mem_map.mp hb with ⟨x, hx, rfl⟩
  obtain ⟨hx1, hx2⟩ := mem_tzClipped_bounds vmin vmax discount_rate reward terminal
    atoms (le_of_lt hv) x hx
  obtain ⟨hb0, hb1⟩ := bCoord_bounds vmin vmax delta_z x n hn hv hδ hx1 hx2
  obtain ⟨h1, h2, _, _⟩ := floor_ceil_of_bCoord_in_range _ n hb0 hb1
  exact ⟨h1, by omega⟩

/-- C2: assuming the selected next-action probability vector sums to 1 (and
is non-negative), the selected-action row of the target histogram sums to
exactly 1 — mass is conserved because the two contributions `d_m_l` and
`d_m_u` sum pointwise to `p_next` and every scatter-add lands inside the
length-`n_atoms` row. -/
theorem selected_row_sums_to_one (vmin vmax delta_z discount_rate reward terminal : ℚ)
    (n action_dim : ℕ) (prob_next : List (List ℚ)) (atoms : List ℚ)
    (hn : 2 ≤ n) (hv : vmin < vmax)
    (hδ : delta_z = (vmax - vmin) / ((n : ℚ) - 1))
    (hatoms : atoms.length = n)
    (hp : (prob_next.getD (selectNextAction prob_next atoms) []).length = n)
    (hpos : ∀ q ∈ prob_next.getD (selectNextAction prob_next atoms) [], 0 ≤ q)
    (hsum : (prob_next.getD (selectNextAction prob_next atoms) []).sum = 1)
    (ha : selectNextAction prob_next atoms < action_dim) :
    ((projectItem vmin vmax delta_z discount_rate reward terminal n action_dim
      prob_next atoms).getD (selectNextAction prob_next atoms) []).sum = 1 := by
  set p := prob_next.getD (selectNextAction prob_next atoms) [] with hpdef
  set L := lList vmin vmax delta_z discount_rate reward terminal atoms with hLdef
  set dmlL := dmlList vmin vmax delta_z discount_rate reward terminal atoms p with hdmlLdef
  set dmuL := dmuList vmin vmax delta_z discount_rate reward terminal atoms p with hdmuLdef
  have hLlen : L.length = n := by rw [hLdef, lList_length, hatoms]
  have hblen : (bList vmin vmax delta_z discount_rate reward terminal atoms).length = n := by
    rw [bList_length, hatoms]
  have hdmlLlen : dmlL.length = n := by
    rw [hdmlLdef]
    unfold dmlList
    rw [List.length_zipWith, hblen, hp]
    exact Nat.min_self n
  have hdmuLlen : dmuL.length = n := by
    rw [hdmuLdef]
    unfold dmuList
    rw [List.length_zipWith, hblen, hp]
    exact Nat.min_self n
  have hLbounds := lList_mem_bounds vmin vmax delta_z discount_rate reward terminal
    atoms n hn hv hδ
  -- the projected histogram row is the selected row
  have hrow : (projectItem vmin vmax delta_z discount_rate reward terminal n action_dim
      prob_next atoms).getD (selectNextAction prob_next atoms) []
      = selectedRow vmin vmax delta_z discount_rate reward terminal n atoms p := by
    unfold projectItem
    have hlen : selectNextAction prob_next atoms
        < ((List.range action_dim).map (fun k =>
          if k = selectNextAction prob_next atoms then
            selectedRow vmin vmax delta_z discount_rate reward terminal n atoms
              (prob_next.getD (selectNextAction prob_next atoms) [])
          else List.replicate n 0)).length := by
      simpa using ha
    rw [List.getD_eq_getElem _ _ hlen, List.getElem_map, List.getElem_range, if_pos rfl]
  rw [hrow]
  unfold selectedRow
  rw [← hLdef, ← hdmlLdef, ← hdmuLdef]
  have hzip1 : ∀ iv ∈ L.zip dmlL, 0 ≤ iv.1 ∧
      iv.1 < ((List.replicate n (0 : ℚ)).length : ℤ) := by
    intro iv hiv
    obtain ⟨hmem, _⟩ := List.of_mem_zip (a := iv.1) (b := iv.2) (by simpa using hiv)
    obtain ⟨h1, h2⟩ := hLbounds iv.1 hmem
    simp only [List.length_replicate]
    exact ⟨h1, h2⟩
  have hrow1len : (npAddAt (List.replicate n (0 : ℚ)) (L.zip dmlL)).length = n := by
    rw [npAddAt_length, List.length_replicate]
  have hzip2 : ∀ iv ∈ L.zip dmuL, 0 ≤ iv.1 ∧
      iv.1 < ((npAddAt (List.replicate n (0 : ℚ)) (L.zip dmlL)).length : ℤ) := by
    intro iv hiv
    obtain ⟨hmem, _⟩ := List.of_mem_zip (a := iv.1) (b := iv.2) (by simpa using hiv)
    obtain ⟨h1, h2⟩ := hLbounds iv.1 hmem
    rw [hrow1len]
    exact ⟨h1, h2⟩
  rw [npAddAt_sum (L.zip dmuL) _ hzip2, npAddAt_sum (L.zip dmlL) _ hzip1]
  rw [List.map_snd_zip L dmlL (by omega), List.map_snd_zip L dmuL (by omega)]
  have hzero : (List.replicate n (0 : ℚ)).sum = 0 := by simp
  rw [hzero]
  have hmass : dmlL.sum + dmuL.sum = p.sum := by
    rw [hdmlLdef, hdmuLdef]
    unfold dmlList dmuList
    exact zipWith_dml_dmu_sum _ p (by rw [hblen, hp])
  rw [zero_add, ← hsum]
  exact hmass

/-- C2 witness: `vmin = 0`, `vmax = 2`, three atoms `[0, 1, 2]`,
`reward = 1/2`, non-terminal, point mass `p = [1, 0, 0]`: the selected
target row sums to 1. -/
theorem selected_row_sums_to_one_witness :
    (([[(1 : ℚ), 0, 0]].getD (selectNextAction [[(1 : ℚ), 0, 0]] [0, 1, 2]) []).sum = 1) ∧
    ((projectItem 0 2 1 1 (1/2) 0 3 1 [[(1 : ℚ), 0, 0]] [0, 1, 2]).getD
      (selectNextAction [[(1 : ℚ), 0, 0]] [0, 1, 2]) []).sum = 1 :=
  ⟨by norm_num [selectNextAction, qValues, dot, npArgmax],
   selected_row_sums_to_one 0 2 1 1 (1/2) 0 3 1 [[1, 0, 0]] [0, 1, 2]
     (by norm_num) (by norm_num) (by norm_num)
     (by norm_num)
     (by norm_num [selectNextAction, qValues, dot, npArgmax])
     (by norm_num [selectNextAction, qValues, dot, npArgmax])
     (by norm_num [selectNextAction, qValues, dot, npArgmax])
     (by norm_num [selectNextAction, qValues, dot, npArgmax])⟩

end CategoricalDQN
